import Mathlib

/-!
Shallow embedding of the mlpack spike-and-slab RBM policy
(`src/mlpack/methods/rbm/spike_slab_rbm_policy_impl.hpp`).

Vectors and matrices are represented as functions from natural-number
indices to real numbers.  Armadillo stores matrices and cubes in
column-major order, and the C++ code aliases flat buffers into shaped
views; the embedding makes those flat offsets explicit.  Randomness is
modelled by threading explicit streams of uniform variates (for Bernoulli
draws) and standard-normal variates (for Gaussian draws).
-/

noncomputable section

namespace SpikeSlabRBM

/-- Model state of `SpikeSlabRBMPolicy`: the dimensions, the externally
supplied slab precision hyperparameter (`slabPenalty k i` is entry (k, i)
of the P-by-H matrix), the rejection radius, and the flat parameter
buffer of conceptual length `V*P*H + H + V`. -/
structure SSRBM where
  visibleSize : ℕ
  hiddenSize : ℕ
  poolSize : ℕ
  slabPenalty : ℕ → ℕ → ℝ
  radius : ℝ
  parameter : ℕ → ℝ

/-- Flat offset of weight cube entry (r, c, s) inside the parameter
buffer, as established by `Reset()`: the cube is V-by-P-by-H, column
major, slices consecutive, starting at offset 0. -/
def weightIdx (m : SSRBM) (r c s : ℕ) : ℕ :=
  s * (m.visibleSize * m.poolSize) + c * m.visibleSize + r

/-- Flat offset of spike-bias entry i, as established by `Reset()`:
the spike-bias view starts right after the `V*P*H` weight entries. -/
def spikeBiasIdx (m : SSRBM) (i : ℕ) : ℕ :=
  m.visibleSize * m.poolSize * m.hiddenSize + i

/-- Flat offset of visible-precision entry j, as established by
`Reset()`: the view starts after the weight and spike-bias entries. -/
def visiblePenaltyIdx (m : SSRBM) (j : ℕ) : ℕ :=
  m.visibleSize * m.poolSize * m.hiddenSize + m.hiddenSize + j

/-- Weight view after `Reset()`: entry (r, c, s) of the V-by-P-by-H cube
aliased onto the parameter buffer. -/
def weight (m : SSRBM) (r c s : ℕ) : ℝ :=
  m.parameter (weightIdx m r c s)

/-- Spike-bias view after `Reset()`. -/
def spikeBias (m : SSRBM) (i : ℕ) : ℝ :=
  m.parameter (spikeBiasIdx m i)

/-- Visible-precision view after `Reset()` (named `visiblePenalty` in the
C++ source). -/
def visiblePenalty (m : SSRBM) (j : ℕ) : ℝ :=
  m.parameter (visiblePenaltyIdx m j)

/-- Entry c of `weight.slice(s).t() * v`: the dot product of the visible
vector `v` with column c of weight slice s. -/
def vwdot (m : SSRBM) (v : ℕ → ℝ) (c s : ℕ) : ℝ :=
  ∑ r in Finset.range m.visibleSize, v r * weight m r c s

/-- Modelled from the spec: `LogisticFunction::Fn` lives outside the
given sources; the spec says the spike mean is the logistic function of
its pre-activation. -/
def logistic (x : ℝ) : ℝ :=
  1 / (1 + Real.exp (-x))

/-- Modelled from the spec: `SoftplusFunction::Fn` lives outside the
given sources; the spec writes the free-energy hidden terms with
softplus. -/
def softplus (x : ℝ) : ℝ :=
  Real.log (1 + Real.exp x)

/-- Modelled from the spec: `math::RandBernoulli` lives outside the given
sources; the spec says an independent Bernoulli draw with the given
success probability.  `u` is the uniform variate consumed by the draw. -/
def randBernoulli (p u : ℝ) : ℝ :=
  if u < p then 1 else 0

/-- Modelled from the spec: `math::RandNormal` lives outside the given
sources; the spec says a Gaussian draw with the given mean and variance.
`e` is the standard-normal variate consumed by the draw. -/
def randNormal (mean variance e : ℝ) : ℝ :=
  mean + Real.sqrt variance * e

/-- Embeds `SpikeMean` (source lines 157-172): per hidden unit i,
`logistic(0.5 * vᵗ W_i diag(slabPenalty.col(i))⁻¹ W_iᵗ v + spikeBias(i))`;
the quadratic form expands to a sum over the pool. -/
def SpikeMean (m : SSRBM) (visible : ℕ → ℝ) (i : ℕ) : ℝ :=
  logistic (0.5 * (∑ k in Finset.range m.poolSize,
    vwdot m visible k i * vwdot m visible k i / m.slabPenalty k i) +
    spikeBias m i)

/-- Embeds `SampleSpike` (source lines 174-185): independent Bernoulli draw per
hidden unit with success probability `spikeMean(i)`. -/
def SampleSpike (spikeMean u : ℕ → ℝ) (i : ℕ) : ℝ :=
  randBernoulli (spikeMean i) (u i)

/-- Embeds `SlabMean` (source lines 187-210): column i of the P-by-H slab mean is
`spike(i) * diag(slabPenalty.col(i))⁻¹ * weight.slice(i).t() * visible`;
entry (k, i) is written out below. -/
def SlabMean (m : SSRBM) (visible spike : ℕ → ℝ) (k i : ℕ) : ℝ :=
  spike i * (vwdot m visible k i / m.slabPenalty k i)

/-- Embeds `SampleSlab` (source lines 213-233): independent Gaussian draw per
cell with mean `slabMean(k, i)` and variance `1/slabPenalty(k, i)`. -/
def SampleSlab (m : SSRBM) (slabMean : ℕ → ℕ → ℝ) (e : ℕ → ℕ → ℝ)
    (k i : ℕ) : ℝ :=
  randNormal (slabMean k i) (1 / m.slabPenalty k i) (e k i)

/-- Embeds `VisibleMean` (source lines 235-249).  The hidden input is a flat
buffer: H spike entries followed by the P-by-H slab matrix in column-major
order, so `slab(k, i) = input (H + i*P + k)`.  The C++ code calls
`output.set_size(visibleSize, 1)` (which never zeroes the buffer) and then
accumulates with `output += ...`, so the result depends on the prior
contents of the caller-supplied output buffer; those contents enter here
as `prior`. -/
def VisibleMean (m : SSRBM) (input prior : ℕ → ℝ) (j : ℕ) : ℝ :=
  (prior j + ∑ i in Finset.range m.hiddenSize,
    (∑ k in Finset.range m.poolSize,
      weight m j k i * input (m.hiddenSize + i * m.poolSize + k)) * input i) /
  visiblePenalty m j

/-- Embeds `FreeEnergy` (source lines 55-84). -/
def FreeEnergy (m : SSRBM) (input : ℕ → ℝ) : ℝ :=
  0.5 * (∑ j in Finset.range m.visibleSize,
      input j * visiblePenalty m j * input j) -
    (∑ i in Finset.range m.hiddenSize, ∑ k in Finset.range m.poolSize,
      0.5 * Real.log (2 * Real.pi / m.slabPenalty k i)) -
    ∑ i in Finset.range m.hiddenSize,
      softplus (spikeBias m i + ∑ k in Finset.range m.poolSize,
        vwdot m input k i * vwdot m input k i / (2 * m.slabPenalty k i))

/-- Embeds `Evaluate` (source lines 86-91): returns 0 unconditionally. -/
def Evaluate (m : SSRBM) (predictors : ℕ → ℕ → ℝ) (i : ℕ) : ℝ :=
  0

/-- Result of one gradient phase: the three scratch members the call
overwrites (`spikeMean`, `spikeSamples`, `slabMean`) and the flat
gradient buffer. -/
structure PhaseResult where
  spikeMean : ℕ → ℝ
  spikeSamples : ℕ → ℝ
  slabMean : ℕ → ℕ → ℝ
  grad : ℕ → ℝ

/-- Embeds `PositivePhase` (source lines 100-126).  The gradient buffer is
aliased into weight, spike-bias and visible-precision views at the same
offsets `Reset()` uses; a flat cell n is decoded accordingly.  `u` is the
uniform stream consumed by the spike sampling; `gradPrior` is the prior
contents of the gradient buffer (cells beyond the parameter length are
untouched). -/
def PositivePhase (m : SSRBM) (input u gradPrior : ℕ → ℝ) : PhaseResult where
  spikeMean := fun i => SpikeMean m input i
  spikeSamples := fun i => SampleSpike (fun j => SpikeMean m input j) u i
  slabMean := fun k i =>
    SlabMean m input (fun j => SampleSpike (fun l => SpikeMean m input l) u j) k i
  grad := fun n =>
    if n < m.visibleSize * m.poolSize * m.hiddenSize then
      input (n % m.visibleSize) *
        SlabMean m input (fun j => SampleSpike (fun l => SpikeMean m input l) u j)
          ((n / m.visibleSize) % m.poolSize) (n / (m.visibleSize * m.poolSize)) *
        SpikeMean m input (n / (m.visibleSize * m.poolSize))
    else if n < m.visibleSize * m.poolSize * m.hiddenSize + m.hiddenSize then
      SpikeMean m input (n - m.visibleSize * m.poolSize * m.hiddenSize)
    else if n < m.visibleSize * m.poolSize * m.hiddenSize + m.hiddenSize +
        m.visibleSize then
      -0.5 * input (n - (m.visibleSize * m.poolSize * m.hiddenSize + m.hiddenSize)) *
        input (n - (m.visibleSize * m.poolSize * m.hiddenSize + m.hiddenSize))
    else gradPrior n

/-- Embeds `NegativePhase` (source lines 128-155): textually the same procedure
as `PositivePhase` applied to the caller-supplied negative samples. -/
def NegativePhase (m : SSRBM) (negativeSamples u gradPrior : ℕ → ℝ) :
    PhaseResult where
  spikeMean := fun i => SpikeMean m negativeSamples i
  spikeSamples := fun i =>
    SampleSpike (fun j => SpikeMean m negativeSamples j) u i
  slabMean := fun k i =>
    SlabMean m negativeSamples
      (fun j => SampleSpike (fun l => SpikeMean m negativeSamples l) u j) k i
  grad := fun n =>
    if n < m.visibleSize * m.poolSize * m.hiddenSize then
      negativeSamples (n % m.visibleSize) *
        SlabMean m negativeSamples
          (fun j => SampleSpike (fun l => SpikeMean m negativeSamples l) u j)
          ((n / m.visibleSize) % m.poolSize) (n / (m.visibleSize * m.poolSize)) *
        SpikeMean m negativeSamples (n / (m.visibleSize * m.poolSize))
    else if n < m.visibleSize * m.poolSize * m.hiddenSize + m.hiddenSize then
      SpikeMean m negativeSamples (n - m.visibleSize * m.poolSize * m.hiddenSize)
    else if n < m.visibleSize * m.poolSize * m.hiddenSize + m.hiddenSize +
        m.visibleSize then
      -0.5 * negativeSamples
          (n - (m.visibleSize * m.poolSize * m.hiddenSize + m.hiddenSize)) *
        negativeSamples
          (n - (m.visibleSize * m.poolSize * m.hiddenSize + m.hiddenSize))
    else gradPrior n

/-- Embeds `HiddenMean` (source lines 251-264): the output buffer of length
`H + P*H` holds the spike means in its first H cells and the slab means
(conditioned on a freshly drawn spike sample) in its remaining `P*H`
cells; the spike sample itself is written to the `spikeSamples` scratch
member, returned as the second component. -/
def HiddenMean (m : SSRBM) (input u : ℕ → ℝ) : (ℕ → ℝ) × (ℕ → ℝ) :=
  (fun n =>
    if n < m.hiddenSize then SpikeMean m input n
    else if n < m.hiddenSize + m.poolSize * m.hiddenSize then
      SlabMean m input (fun j => SampleSpike (fun l => SpikeMean m input l) u j)
        ((n - m.hiddenSize) % m.poolSize) ((n - m.hiddenSize) / m.poolSize)
    else 0,
   fun i => SampleSpike (fun l => SpikeMean m input l) u i)

/-- Euclidean norm of the first n components, `arma::norm`. -/
def euclNorm (n : ℕ) (v : ℕ → ℝ) : ℝ :=
  Real.sqrt (∑ i in Finset.range n, v i * v i)

/-- One trial of `SampleVisible`: every visible unit is redrawn in place
from a Gaussian centred at its current value with variance
`1/visiblePenalty(i)`.  `e` is the standard-normal stream, indexed by
trial number k and unit i. -/
def ssvDraw (m : SSRBM) (e : ℕ → ℕ → ℝ) (cur : ℕ → ℝ) (k : ℕ) : ℕ → ℝ :=
  fun i => randNormal (cur i) (1 / visiblePenalty m i) (e k i)

/-- The trial loop of `SampleVisible` (source lines 274-283), with the
remaining trial budget as fuel.  Besides the final output buffer it
returns the trace of executed trials as (mean used, vector drawn) pairs,
so that the claims about the individual draws can be stated. -/
def ssvLoop (m : SSRBM) (e : ℕ → ℕ → ℝ) :
    (ℕ → ℝ) → ℕ → ℕ → (ℕ → ℝ) × List ((ℕ → ℝ) × (ℕ → ℝ))
  | cur, _, 0 => (cur, [])
  | cur, k, fuel + 1 =>
    if euclNorm m.visibleSize (ssvDraw m e cur k) < m.radius then
      (ssvDraw m e cur k, [(cur, ssvDraw m e cur k)])
    else
      ((ssvLoop m e (ssvDraw m e cur k) (k + 1) fuel).1,
        (cur, ssvDraw m e cur k) ::
          (ssvLoop m e (ssvDraw m e cur k) (k + 1) fuel).2)

/-- Embeds `numMaxTrials` (source line 270). -/
def numMaxTrials : ℕ := 10

/-- Embeds `SampleVisible` (source lines 267-284): computes the visible mean
into the caller-supplied output buffer (whose prior contents are
`prior`), then runs at most `numMaxTrials` in-place Gaussian redraw
trials. -/
def SampleVisible (m : SSRBM) (input prior : ℕ → ℝ) (e : ℕ → ℕ → ℝ) :
    (ℕ → ℝ) × List ((ℕ → ℝ) × (ℕ → ℝ)) :=
  ssvLoop m e (VisibleMean m input prior) 0 numMaxTrials

/-- All-zero vector used as a concrete input. -/
def zf : ℕ → ℝ := fun _ => 0

/-- All-one vector used as a concrete input. -/
def onev : ℕ → ℝ := fun _ => 1

/-- All-one standard-normal stream used as a concrete input. -/
def onee : ℕ → ℕ → ℝ := fun _ _ => 1

/-- Concrete model: V = H = P = 1, unit slab precision, radius 10, and a
parameter buffer whose single visible-precision cell (offset 2) is 1
while the weight and spike bias are 0. -/
def mW : SSRBM where
  visibleSize := 1
  hiddenSize := 1
  poolSize := 1
  slabPenalty := fun _ _ => 1
  radius := 10
  parameter := fun n => if n = 2 then 1 else 0

/-- Concrete model like `mW` but with weight 2, so that the spike mean at
input [1] is `logistic 2`, strictly between 0 and 1. -/
def mC2 : SSRBM where
  visibleSize := 1
  hiddenSize := 1
  poolSize := 1
  slabPenalty := fun _ _ => 1
  radius := 10
  parameter := fun n => if n = 0 then 2 else if n = 2 then 1 else 0

/-- Concrete model like `mW` but with radius 0, so that no drawn vector
is ever accepted and every trial of the budget runs. -/
def mC3 : SSRBM where
  visibleSize := 1
  hiddenSize := 1
  poolSize := 1
  slabPenalty := fun _ _ => 1
  radius := 0
  parameter := fun n => if n = 2 then 1 else 0

/-- Concrete model family for the free-energy scenario: V = 3, H = 1,
P = 1, unit slab precision, radius 10, arbitrary parameter buffer. -/
def mC5 (p : ℕ → ℝ) : SSRBM where
  visibleSize := 3
  hiddenSize := 1
  poolSize := 1
  slabPenalty := fun _ _ => 1
  radius := 10
  parameter := p

/-- C9: `Evaluate` returns 0 for every predictors matrix and every index
argument, independent of the model parameters and state. -/
theorem evaluate_returns_zero (m : SSRBM) (predictors : ℕ → ℕ → ℝ) (i : ℕ) :
    Evaluate m predictors i = 0 := rfl

/-- C7: `PositivePhase` and `NegativePhase` are the identical procedure:
for every model, visible vector, random-draw stream and prior gradient
buffer they produce the same scratch state and the same gradient buffer,
differing only in which visible vector the caller supplies. -/
theorem positive_negative_phase_identical (m : SSRBM)
    (input u gradPrior : ℕ → ℝ) :
    PositivePhase m input u gradPrior = NegativePhase m input u gradPrior := rfl

/-- C8: column i of the matrix produced by `SlabMean` is exactly zero
whenever `spike i = 0`, at every pool row k. -/
theorem slabMean_zero_when_spike_zero (m : SSRBM) (visible spike : ℕ → ℝ)
    (k i : ℕ) (h : spike i = 0) : SlabMean m visible spike k i = 0 := by
  unfold SlabMean
  rw [h, zero_mul]

theorem slabMean_zero_when_spike_zero_witness :
    zf 0 = 0 ∧ SlabMean mW onev zf 0 0 = 0 :=
  ⟨rfl, slabMean_zero_when_spike_zero mW onev zf 0 0 rfl⟩

/-- C10: the first H entries of the `HiddenMean` output buffer are the
deterministic spike means, and the Bernoulli spike sample used to
condition the slab portion is written only to the `spikeSamples` scratch
member, returned as the second component; it never replaces the means in
the output. -/
theorem hiddenMean_spike_portion_is_mean (m : SSRBM) (input u : ℕ → ℝ) :
    (∀ n, n < m.hiddenSize → (HiddenMean m input u).1 n = SpikeMean m input n) ∧
    (HiddenMean m input u).2 =
      fun i => SampleSpike (fun l => SpikeMean m input l) u i := by
  constructor
  · intro n hn
    simp [HiddenMean, hn]
  · rfl

theorem hiddenMean_spike_portion_is_mean_witness :
    0 < mW.hiddenSize ∧ (HiddenMean mW onev zf).1 0 = SpikeMean mW onev 0 :=
  ⟨Nat.one_pos, (hiddenMean_spike_portion_is_mean mW onev zf).1 0 Nat.one_pos⟩

/-- C5: with V = 3, H = 1, P = 1, unit slab precision and radius 10, for
every value of the parameter buffer the free energy of the zero visible
vector is exactly `-0.5*log(2*pi) - softplus(spikeBias 0)`. -/
theorem freeEnergy_closed_form_at_zero (p : ℕ → ℝ) :
    FreeEnergy (mC5 p) zf =
      -0.5 * Real.log (2 * Real.pi) - softplus (spikeBias (mC5 p) 0) := by
  have hvw : ∀ k i, vwdot (mC5 p) zf k i = 0 := by
    intro k i
    simp [vwdot, zf]
  simp only [FreeEnergy, hvw]
  have hV : (mC5 p).visibleSize = 3 := rfl
  have hH : (mC5 p).hiddenSize = 1 := rfl
  have hP : (mC5 p).poolSize = 1 := rfl
  have hS : ∀ k i, (mC5 p).slabPenalty k i = 1 := fun _ _ => rfl
  rw [hV, hH, hP]
  simp [zf, hS]

theorem colRow_lt (m : SSRBM) {r c : ℕ} (hr : r < m.visibleSize)
    (hc : c < m.poolSize) :
    c * m.visibleSize + r < m.visibleSize * m.poolSize := by
  calc c * m.visibleSize + r < c * m.visibleSize + m.visibleSize := by omega
    _ = (c + 1) * m.visibleSize := by ring
    _ ≤ m.poolSize * m.visibleSize := Nat.mul_le_mul_right _ (by omega)
    _ = m.visibleSize * m.poolSize := Nat.mul_comm _ _

theorem weightIdx_lt (m : SSRBM) {r c s : ℕ} (hr : r < m.visibleSize)
    (hc : c < m.poolSize) (hs : s < m.hiddenSize) :
    weightIdx m r c s < m.visibleSize * m.poolSize * m.hiddenSize := by
  unfold weightIdx
  calc s * (m.visibleSize * m.poolSize) + c * m.visibleSize + r
      = s * (m.visibleSize * m.poolSize) + (c * m.visibleSize + r) := by ring
    _ < s * (m.visibleSize * m.poolSize) + m.visibleSize * m.poolSize :=
        Nat.add_lt_add_left (colRow_lt m hr hc) _
    _ = (s + 1) * (m.visibleSize * m.poolSize) := by ring
    _ ≤ m.hiddenSize * (m.visibleSize * m.poolSize) :=
        Nat.mul_le_mul_right _ (by omega)
    _ = m.visibleSize * m.poolSize * m.hiddenSize := by ring

theorem weightIdx_decode (m : SSRBM) {r c s : ℕ} (hr : r < m.visibleSize)
    (hc : c < m.poolSize) :
    weightIdx m r c s % m.visibleSize = r ∧
    (weightIdx m r c s / m.visibleSize) % m.poolSize = c ∧
    weightIdx m r c s / (m.visibleSize * m.poolSize) = s := by
  have hV : 0 < m.visibleSize := Nat.lt_of_le_of_lt (Nat.zero_le _) hr
  have hP : 0 < m.poolSize := Nat.lt_of_le_of_lt (Nat.zero_le _) hc
  have e1 : weightIdx m r c s = r + m.visibleSize * (c + m.poolSize * s) := by
    unfold weightIdx; ring
  refine ⟨?_, ?_, ?_⟩
  · rw [e1, Nat.add_mul_mod_self_left, Nat.mod_eq_of_lt hr]
  · rw [e1, Nat.add_mul_div_left _ _ hV, Nat.div_eq_of_lt hr, zero_add,
      Nat.add_mul_mod_self_left, Nat.mod_eq_of_lt hc]
  · have e2 : weightIdx m r c s =
        (c * m.visibleSize + r) + (m.visibleSize * m.poolSize) * s := by
      unfold weightIdx; ring
    rw [e2, Nat.add_mul_div_left _ _ (Nat.mul_pos hV hP),
      Nat.div_eq_of_lt (colRow_lt m hr hc), zero_add]

theorem positivePhase_grad_weightIdx (m : SSRBM) (input u gradPrior : ℕ → ℝ)
    {r c s : ℕ} (hr : r < m.visibleSize) (hc : c < m.poolSize)
    (hs : s < m.hiddenSize) :
    (PositivePhase m input u gradPrior).grad (weightIdx m r c s) =
      input r * (PositivePhase m input u gradPrior).slabMean c s *
        (PositivePhase m input u gradPrior).spikeMean s := by
  obtain ⟨e1, e2, e3⟩ := weightIdx_decode m hr hc
  simp only [PositivePhase]
  rw [if_pos (weightIdx_lt m hr hc hs), e1, e2, e3]

theorem positivePhase_grad_spikeBiasIdx (m : SSRBM) (input u gradPrior : ℕ → ℝ)
    {i : ℕ} (hi : i < m.hiddenSize) :
    (PositivePhase m input u gradPrior).grad (spikeBiasIdx m i) =
      (PositivePhase m input u gradPrior).spikeMean i := by
  simp only [PositivePhase, spikeBiasIdx]
  rw [if_neg (by omega), if_pos (by omega)]
  congr 1
  omega

theorem positivePhase_grad_visiblePenaltyIdx (m : SSRBM)
    (input u gradPrior : ℕ → ℝ) {j : ℕ} (hj : j < m.visibleSize) :
    (PositivePhase m input u gradPrior).grad (visiblePenaltyIdx m j) =
      -0.5 * input j * input j := by
  simp only [PositivePhase, visiblePenaltyIdx]
  rw [if_neg (by omega), if_neg (by omega), if_pos (by omega)]
  have hd : m.visibleSize * m.poolSize * m.hiddenSize + m.hiddenSize + j -
      (m.visibleSize * m.poolSize * m.hiddenSize + m.hiddenSize) = j := by omega
  rw [hd]

/-- C6: after `Reset()` the weight, spike-bias and visible-precision views
occupy parameter-buffer offsets [0, V*P*H), [V*P*H, V*P*H+H) and
[V*P*H+H, V*P*H+H+V) respectively, and both `PositivePhase` and
`NegativePhase` alias the gradient buffer into weight, spike-bias and
visible-precision gradient views at those identical offsets. -/
theorem reset_and_gradient_offset_layout (m : SSRBM) :
    (∀ r c s, r < m.visibleSize → c < m.poolSize → s < m.hiddenSize →
      weightIdx m r c s < m.visibleSize * m.poolSize * m.hiddenSize ∧
      weight m r c s = m.parameter (weightIdx m r c s)) ∧
    (∀ i, i < m.hiddenSize →
      m.visibleSize * m.poolSize * m.hiddenSize ≤ spikeBiasIdx m i ∧
      spikeBiasIdx m i <
        m.visibleSize * m.poolSize * m.hiddenSize + m.hiddenSize ∧
      spikeBias m i = m.parameter (spikeBiasIdx m i)) ∧
    (∀ j, j < m.visibleSize →
      m.visibleSize * m.poolSize * m.hiddenSize + m.hiddenSize ≤
        visiblePenaltyIdx m j ∧
      visiblePenaltyIdx m j <
        m.visibleSize * m.poolSize * m.hiddenSize + m.hiddenSize +
          m.visibleSize ∧
      visiblePenalty m j = m.parameter (visiblePenaltyIdx m j)) ∧
    (∀ input u gradPrior r c s, r < m.visibleSize → c < m.poolSize →
      s < m.hiddenSize →
      (PositivePhase m input u gradPrior).grad (weightIdx m r c s) =
        input r * (PositivePhase m input u gradPrior).slabMean c s *
          (PositivePhase m input u gradPrior).spikeMean s ∧
      (NegativePhase m input u gradPrior).grad (weightIdx m r c s) =
        input r * (NegativePhase m input u gradPrior).slabMean c s *
          (NegativePhase m input u gradPrior).spikeMean s) ∧
    (∀ input u gradPrior i, i < m.hiddenSize →
      (PositivePhase m input u gradPrior).grad (spikeBiasIdx m i) =
        (PositivePhase m input u gradPrior).spikeMean i ∧
      (NegativePhase m input u gradPrior).grad (spikeBiasIdx m i) =
        (NegativePhase m input u gradPrior).spikeMean i) ∧
    (∀ input u gradPrior j, j < m.visibleSize →
      (PositivePhase m input u gradPrior).grad (visiblePenaltyIdx m j) =
        -0.5 * input j * input j ∧
      (NegativePhase m input u gradPrior).grad (visiblePenaltyIdx m j) =
        -0.5 * input j * input j) := by
  have hpn : ∀ input u gradPrior, NegativePhase m input u gradPrior =
      PositivePhase m input u gradPrior := fun _ _ _ => rfl
  refine ⟨?_, ?_, ?_, ?_, ?_, ?_⟩
  · intro r c s hr hc hs
    exact ⟨weightIdx_lt m hr hc hs, rfl⟩
  · intro i hi
    exact ⟨by unfold spikeBiasIdx; omega, by unfold spikeBiasIdx; omega, rfl⟩
  · intro j hj
    exact ⟨by unfold visiblePenaltyIdx; omega,
      by unfold visiblePenaltyIdx; omega, rfl⟩
  · intro input u gradPrior r c s hr hc hs
    refine ⟨positivePhase_grad_weightIdx m input u gradPrior hr hc hs, ?_⟩
    rw [hpn]
    exact positivePhase_grad_weightIdx m input u gradPrior hr hc hs
  · intro input u gradPrior i hi
    refine ⟨positivePhase_grad_spikeBiasIdx m input u gradPrior hi, ?_⟩
    rw [hpn]
    exact positivePhase_grad_spikeBiasIdx m input u gradPrior hi
  · intro input u gradPrior j hj
    refine ⟨positivePhase_grad_visiblePenaltyIdx m input u gradPrior hj, ?_⟩
    rw [hpn]
    exact positivePhase_grad_visiblePenaltyIdx m input u gradPrior hj

theorem reset_and_gradient_offset_layout_witness :
    0 < mW.hiddenSize ∧
    (mW.visibleSize * mW.poolSize * mW.hiddenSize ≤ spikeBiasIdx mW 0 ∧
      spikeBiasIdx mW 0 <
        mW.visibleSize * mW.poolSize * mW.hiddenSize + mW.hiddenSize ∧
      spikeBias mW 0 = mW.parameter (spikeBiasIdx mW 0)) :=
  ⟨Nat.one_pos, (reset_and_gradient_offset_layout mW).2.1 0 Nat.one_pos⟩

theorem logistic_two_pos : (0 : ℝ) < logistic 2 := by
  unfold logistic
  positivity

theorem logistic_two_lt_one : logistic 2 < 1 := by
  unfold logistic
  rw [div_lt_one (by positivity)]
  have h := Real.exp_pos (-2 : ℝ)
  linarith

theorem mC2_spikeMean : SpikeMean mC2 onev 0 = logistic 2 := by
  unfold SpikeMean
  congr 1
  have hw : vwdot mC2 onev 0 0 = 2 := by
    simp [vwdot, weight, weightIdx, mC2, onev]
  have hb : spikeBias mC2 0 = 0 := by
    simp [spikeBias, spikeBiasIdx, mC2]
  have hs : mC2.slabPenalty 0 0 = 1 := rfl
  have hp : mC2.poolSize = 1 := rfl
  rw [hp, Finset.sum_range_one, hw, hs, hb]
  norm_num

theorem mC2_sample : SampleSpike (fun l => SpikeMean mC2 onev l) zf 0 = 1 := by
  simp only [SampleSpike, randBernoulli, zf, mC2_spikeMean]
  rw [if_pos logistic_two_pos]

theorem mC2_slabMean :
    SlabMean mC2 onev
      (fun j => SampleSpike (fun l => SpikeMean mC2 onev l) zf j) 0 0 = 2 := by
  unfold SlabMean
  have hw : vwdot mC2 onev 0 0 = 2 := by
    simp [vwdot, weight, weightIdx, mC2, onev]
  have hs : mC2.slabPenalty 0 0 = 1 := rfl
  simp only [mC2_sample, hw, hs]
  norm_num

/-- C2 counterexample: at a concrete model (V = H = P = 1, weight 2,
spike bias 0, unit precisions, input [1], uniform draw 0) the weight
gradient cell written by `PositivePhase` is `1 * 2 * logistic 2`, which
differs from the outer product scaled by the sampled spike,
`1 * 2 * 1 = 2`, because the code scales by the spike MEAN. -/
theorem phase_weight_grad_sample_counterexample :
    (PositivePhase mC2 onev zf zf).grad (weightIdx mC2 0 0 0) ≠
      onev 0 * (PositivePhase mC2 onev zf zf).slabMean 0 0 *
        (PositivePhase mC2 onev zf zf).spikeSamples 0 := by
  have hg := positivePhase_grad_weightIdx mC2 onev zf zf
    (Nat.one_pos) (Nat.one_pos) (Nat.one_pos)
  rw [hg]
  simp only [PositivePhase]
  rw [mC2_spikeMean, mC2_sample, mC2_slabMean]
  have h1 : onev 0 = 1 := rfl
  rw [h1]
  have h2 := logistic_two_lt_one
  intro h
  nlinarith

/-- C2 amended: in both phases, weight-gradient slice i is the outer
product of the input and slab-mean column i scaled by the spike MEAN
`spikeMean i` (not by the sampled spike value); since slab-mean column i
already carries the sampled spike as a factor, the slice is still zero
whenever the sampled gate did not fire. -/
theorem phase_weight_grad_slices (m : SSRBM) (input u gradPrior : ℕ → ℝ)
    {r c s : ℕ} (hr : r < m.visibleSize) (hc : c < m.poolSize)
    (hs : s < m.hiddenSize) :
    ((PositivePhase m input u gradPrior).grad (weightIdx m r c s) =
      input r * (PositivePhase m input u gradPrior).slabMean c s *
        (PositivePhase m input u gradPrior).spikeMean s) ∧
    ((PositivePhase m input u gradPrior).spikeSamples s = 0 →
      (PositivePhase m input u gradPrior).grad (weightIdx m r c s) = 0) ∧
    ((NegativePhase m input u gradPrior).grad (weightIdx m r c s) =
      input r * (NegativePhase m input u gradPrior).slabMean c s *
        (NegativePhase m input u gradPrior).spikeMean s) ∧
    ((NegativePhase m input u gradPrior).spikeSamples s = 0 →
      (NegativePhase m input u gradPrior).grad (weightIdx m r c s) = 0) := by
  have hpn : NegativePhase m input u gradPrior =
      PositivePhase m input u gradPrior := rfl
  have hzero : (PositivePhase m input u gradPrior).spikeSamples s = 0 →
      (PositivePhase m input u gradPrior).grad (weightIdx m r c s) = 0 := by
    intro h0
    rw [positivePhase_grad_weightIdx m input u gradPrior hr hc hs]
    have hsl : (PositivePhase m input u gradPrior).slabMean c s = 0 := by
      simp only [PositivePhase] at h0 ⊢
      unfold SlabMean
      simp [h0]
    rw [hsl, mul_zero, zero_mul]
  refine ⟨positivePhase_grad_weightIdx m input u gradPrior hr hc hs, hzero,
    ?_, ?_⟩
  · rw [hpn]
    exact positivePhase_grad_weightIdx m input u gradPrior hr hc hs
  · rw [hpn]
    exact hzero

theorem phase_weight_grad_slices_witness :
    (0 < mC2.visibleSize ∧ 0 < mC2.poolSize ∧ 0 < mC2.hiddenSize) ∧
    (PositivePhase mC2 onev zf zf).grad (weightIdx mC2 0 0 0) =
      onev 0 * (PositivePhase mC2 onev zf zf).slabMean 0 0 *
        (PositivePhase mC2 onev zf zf).spikeMean 0 :=
  ⟨⟨Nat.one_pos, Nat.one_pos, Nat.one_pos⟩,
    (phase_weight_grad_slices mC2 onev zf zf Nat.one_pos Nat.one_pos
      Nat.one_pos).1⟩

/-- C1 evaluation at the failing input: with all-zero hidden input and a
caller-supplied output buffer previously holding 1, `VisibleMean` returns
1, while the value the claim demands,
`diag(visiblePrecision)⁻¹ * Σ_i weight_i * slab_i * spike_i`, is 0 there:
the `output += ...` after `set_size` (which never zeroes) accumulates
into the prior buffer contents instead of overwriting them. -/
theorem visibleMean_depends_on_prior_buffer :
    VisibleMean mW zf onev 0 = 1 ∧
    (∑ i in Finset.range mW.hiddenSize,
      (∑ k in Finset.range mW.poolSize,
        weight mW 0 k i * zf (mW.hiddenSize + i * mW.poolSize + k)) * zf i) /
      visiblePenalty mW 0 = 0 := by
  constructor
  · unfold VisibleMean
    simp [zf, onev, visiblePenalty, visiblePenaltyIdx, mW]
  · simp [zf]

theorem ssvLoop_length_le (m : SSRBM) (e : ℕ → ℕ → ℝ) :
    ∀ fuel cur k, (ssvLoop m e cur k fuel).2.length ≤ fuel := by
  intro fuel
  induction fuel with
  | zero => intro cur k; simp [ssvLoop]
  | succ f ih =>
    intro cur k
    simp only [ssvLoop]
    split
    · simp
    · simpa using Nat.succ_le_succ (ih _ _)

theorem ssvLoop_ne_nil (m : SSRBM) (e : ℕ → ℕ → ℝ) (cur : ℕ → ℝ)
    (k fuel : ℕ) (hf : 0 < fuel) : (ssvLoop m e cur k fuel).2 ≠ [] := by
  cases fuel with
  | zero => omega
  | succ f =>
    simp only [ssvLoop]
    split <;> simp

theorem ssvLoop_nil_result (m : SSRBM) (e : ℕ → ℕ → ℝ) (cur : ℕ → ℝ)
    (k fuel : ℕ) (h : (ssvLoop m e cur k fuel).2 = []) :
    (ssvLoop m e cur k fuel).1 = cur := by
  cases fuel with
  | zero => simp [ssvLoop]
  | succ f => exact absurd h (ssvLoop_ne_nil m e cur k (f + 1) (Nat.succ_pos f))

theorem ssvLoop_getLast (m : SSRBM) (e : ℕ → ℕ → ℝ) :
    ∀ fuel cur k p, (ssvLoop m e cur k fuel).2.getLast? = some p →
      p.2 = (ssvLoop m e cur k fuel).1 := by
  intro fuel
  induction fuel with
  | zero => intro cur k p h; simp [ssvLoop] at h
  | succ f ih =>
    intro cur k p h
    simp only [ssvLoop] at h ⊢
    by_cases hacc : euclNorm m.visibleSize (ssvDraw m e cur k) < m.radius
    · rw [if_pos hacc] at h ⊢
      simp only [List.getLast?_singleton, Option.some.injEq] at h
      rw [← h]
    · rw [if_neg hacc] at h ⊢
      rcases hr : (ssvLoop m e (ssvDraw m e cur k) (k + 1) f).2 with _ | ⟨y, t⟩
      · rw [hr] at h
        simp only [List.getLast?_singleton, Option.some.injEq] at h
        rw [← h]
        exact (ssvLoop_nil_result m e (ssvDraw m e cur k) (k + 1) f hr).symm
      · rw [hr] at h
        rw [List.getLast?_cons_cons] at h
        rw [← hr] at h
        exact ih _ _ _ h

theorem ssvLoop_early_stop (m : SSRBM) (e : ℕ → ℕ → ℝ) :
    ∀ fuel cur k, (ssvLoop m e cur k fuel).2.length < fuel →
      euclNorm m.visibleSize (ssvLoop m e cur k fuel).1 < m.radius := by
  intro fuel
  induction fuel with
  | zero => intro cur k h; simp [ssvLoop] at h
  | succ f ih =>
    intro cur k h
    simp only [ssvLoop] at h ⊢
    by_cases hacc : euclNorm m.visibleSize (ssvDraw m e cur k) < m.radius
    · rw [if_pos hacc]
      exact hacc
    · rw [if_neg hacc] at h ⊢
      simp only [List.length_cons] at h
      exact ih _ _ (by omega)

theorem ssvLoop_get_zero (m : SSRBM) (e : ℕ → ℕ → ℝ) (fuel : ℕ)
    (cur : ℕ → ℝ) (k : ℕ) (p : (ℕ → ℝ) × (ℕ → ℝ))
    (h : (ssvLoop m e cur k fuel).2.get? 0 = some p) : p.1 = cur := by
  cases fuel with
  | zero => simp [ssvLoop] at h
  | succ f =>
    simp only [ssvLoop] at h
    split at h <;>
    · simp only [List.get?_cons_zero, Option.some.injEq] at h
      rw [← h]

theorem ssvLoop_get_draw (m : SSRBM) (e : ℕ → ℕ → ℝ) :
    ∀ fuel cur k j p, (ssvLoop m e cur k fuel).2.get? j = some p →
      p.2 = ssvDraw m e p.1 (k + j) := by
  intro fuel
  induction fuel with
  | zero => intro cur k j p h; simp [ssvLoop] at h
  | succ f ih =>
    intro cur k j p h
    simp only [ssvLoop] at h
    split at h
    · cases j with
      | zero =>
        simp only [List.get?_cons_zero, Option.some.injEq] at h
        rw [← h]
        simp
      | succ j => simp at h
    · cases j with
      | zero =>
        simp only [List.get?_cons_zero, Option.some.injEq] at h
        rw [← h]
        simp
      | succ j =>
        simp only [List.get?_cons_succ] at h
        rw [show k + (j + 1) = k + 1 + j from by omega]
        exact ih _ _ _ _ h

theorem ssvLoop_chain (m : SSRBM) (e : ℕ → ℕ → ℝ) :
    ∀ fuel cur k j p q, (ssvLoop m e cur k fuel).2.get? j = some p →
      (ssvLoop m e cur k fuel).2.get? (j + 1) = some q → q.1 = p.2 := by
  intro fuel
  induction fuel with
  | zero => intro cur k j p q hp hq; simp [ssvLoop] at hp
  | succ f ih =>
    intro cur k j p q hp hq
    simp only [ssvLoop] at hp hq
    by_cases hacc : euclNorm m.visibleSize (ssvDraw m e cur k) < m.radius
    · rw [if_pos hacc] at hq
      cases j <;> simp at hq
    · rw [if_neg hacc] at hp hq
      cases j with
      | zero =>
        simp only [List.get?_cons_zero, Option.some.injEq] at hp
        simp only [List.get?_cons_succ] at hq
        rw [ssvLoop_get_zero m e f (ssvDraw m e cur k) (k + 1) q hq, ← hp]
      | succ j =>
        simp only [List.get?_cons_succ] at hp hq
        exact ih _ _ _ _ _ hp hq

theorem ssvLoop_middle_rejected (m : SSRBM) (e : ℕ → ℕ → ℝ) :
    ∀ fuel cur k j p, j + 1 < (ssvLoop m e cur k fuel).2.length →
      (ssvLoop m e cur k fuel).2.get? j = some p →
      ¬ euclNorm m.visibleSize p.2 < m.radius := by
  intro fuel
  induction fuel with
  | zero => intro cur k j p hl hp; simp [ssvLoop] at hp
  | succ f ih =>
    intro cur k j p hl hp
    simp only [ssvLoop] at hl hp
    by_cases hacc : euclNorm m.visibleSize (ssvDraw m e cur k) < m.radius
    · rw [if_pos hacc] at hl
      simp at hl
    · rw [if_neg hacc] at hl hp
      cases j with
      | zero =>
        simp only [List.get?_cons_zero, Option.some.injEq] at hp
        rw [← hp]
        exact hacc
      | succ j =>
        simp only [List.get?_cons_succ] at hp
        simp only [List.length_cons] at hl
        exact ih _ _ _ _ (by omega) hp

/-- C4: `SampleVisible` performs between 1 and 10 full-vector draws, its
result is always the last drawn vector, every draw other than the final
one failed the radius test (so the loop stops as soon as a draw is within
radius), and whenever the loop stopped before exhausting the 10-trial
budget the returned vector satisfies the radius bound; in particular if
no draw satisfies the bound the last out-of-radius draw is still
returned. -/
theorem sampleVisible_bounded_rejection (m : SSRBM) (input prior : ℕ → ℝ)
    (e : ℕ → ℕ → ℝ) :
    1 ≤ (SampleVisible m input prior e).2.length ∧
    (SampleVisible m input prior e).2.length ≤ numMaxTrials ∧
    (∀ p, (SampleVisible m input prior e).2.getLast? = some p →
      p.2 = (SampleVisible m input prior e).1) ∧
    (∀ j p, j + 1 < (SampleVisible m input prior e).2.length →
      (SampleVisible m input prior e).2.get? j = some p →
      ¬ euclNorm m.visibleSize p.2 < m.radius) ∧
    ((SampleVisible m input prior e).2.length < numMaxTrials →
      euclNorm m.visibleSize (SampleVisible m input prior e).1 < m.radius) := by
  refine ⟨?_, ?_, ?_, ?_, ?_⟩
  · exact List.length_pos.mpr
      (ssvLoop_ne_nil m e _ 0 numMaxTrials (by norm_num [numMaxTrials]))
  · exact ssvLoop_length_le m e numMaxTrials _ 0
  · intro p hp
    exact ssvLoop_getLast m e numMaxTrials _ 0 p hp
  · intro j p hl hp
    exact ssvLoop_middle_rejected m e numMaxTrials _ 0 j p hl hp
  · intro hl
    exact ssvLoop_early_stop m e numMaxTrials _ 0 hl

theorem mW_visibleMean_zero (j : ℕ) : VisibleMean mW zf zf j = 0 := by
  unfold VisibleMean
  simp [zf]

theorem mW_first_draw_zero :
    ssvDraw mW onee (VisibleMean mW zf zf) 0 0 = 1 := by
  unfold ssvDraw randNormal
  rw [mW_visibleMean_zero 0]
  simp [visiblePenalty, visiblePenaltyIdx, mW, onee]

theorem mW_first_draw_norm :
    euclNorm mW.visibleSize (ssvDraw mW onee (VisibleMean mW zf zf) 0) = 1 := by
  unfold euclNorm
  have h1 : mW.visibleSize = 1 := rfl
  rw [h1, Finset.sum_range_one, mW_first_draw_zero]
  norm_num

theorem mW_sampleVisible_eval :
    SampleVisible mW zf zf onee =
      (ssvDraw mW onee (VisibleMean mW zf zf) 0,
        [(VisibleMean mW zf zf, ssvDraw mW onee (VisibleMean mW zf zf) 0)]) := by
  have hacc : euclNorm mW.visibleSize (ssvDraw mW onee (VisibleMean mW zf zf) 0) <
      mW.radius := by
    rw [mW_first_draw_norm]
    norm_num [mW]
  show ssvLoop mW onee (VisibleMean mW zf zf) 0 (9 + 1) = _
  simp only [ssvLoop]
  rw [if_pos hacc]

theorem sampleVisible_bounded_rejection_witness :
    (SampleVisible mW zf zf onee).2.length = 1 ∧
    euclNorm mW.visibleSize (SampleVisible mW zf zf onee).1 < mW.radius := by
  have hlen : (SampleVisible mW zf zf onee).2.length = 1 := by
    rw [mW_sampleVisible_eval]
    rfl
  refine ⟨hlen, ?_⟩
  exact (sampleVisible_bounded_rejection mW zf zf onee).2.2.2.2
    (by rw [hlen]; norm_num [numMaxTrials])

theorem mC3_never_accepts (v : ℕ → ℝ) :
    ¬ euclNorm mC3.visibleSize v < mC3.radius := by
  have h0 : mC3.radius = 0 := rfl
  rw [h0, not_lt]
  unfold euclNorm
  exact Real.sqrt_nonneg _

theorem mC3_visibleMean_zero (j : ℕ) : VisibleMean mC3 zf zf j = 0 := by
  unfold VisibleMean
  simp [zf]

theorem mC3_first_draw_zero :
    ssvDraw mC3 onee (VisibleMean mC3 zf zf) 0 0 = 1 := by
  unfold ssvDraw randNormal
  rw [mC3_visibleMean_zero 0]
  simp [visiblePenalty, visiblePenaltyIdx, mC3, onee]

/-- C3 counterexample: at a concrete model with radius 0 (so no draw is
ever accepted) the second trial of `SampleVisible` draws around the first
trial's drawn vector (component 0 mean is 1), not around the initial
`VisibleMean` vector (component 0 is 0): the output buffer is redrawn in
place, so later trials are centred at the previous draw. -/
theorem sampleVisible_trial_mean_counterexample :
    ¬ ∀ j p, (SampleVisible mC3 zf zf onee).2.get? j = some p →
        p.1 = VisibleMean mC3 zf zf := by
  intro hall
  have h2 : (SampleVisible mC3 zf zf onee).2.get? 1 =
      some (ssvDraw mC3 onee (VisibleMean mC3 zf zf) 0,
        ssvDraw mC3 onee (ssvDraw mC3 onee (VisibleMean mC3 zf zf) 0) 1) := by
    show (ssvLoop mC3 onee (VisibleMean mC3 zf zf) 0 (9 + 1)).2.get? 1 = _
    simp only [ssvLoop]
    rw [if_neg (mC3_never_accepts _)]
    simp only [List.get?_cons_succ]
    show (ssvLoop mC3 onee (ssvDraw mC3 onee (VisibleMean mC3 zf zf) 0)
      (0 + 1) (8 + 1)).2.get? 0 = _
    simp only [ssvLoop]
    rw [if_neg (mC3_never_accepts _)]
    rfl
  have h1 := hall 1 _ h2
  have hfun := congrFun h1 0
  rw [mC3_visibleMean_zero 0] at hfun
  have hone : (1 : ℝ) = 0 := by
    rw [← mC3_first_draw_zero]
    exact hfun
  norm_num at hone

/-- C3 amended: trial 0 of `SampleVisible` draws each visible unit i from
a Gaussian centred at component i of the `VisibleMean` output with
variance `1/visiblePrecision(i)`; every later trial draws around the
previous trial's drawn vector (the output buffer is redrawn in place),
with the same per-unit variance. -/
theorem sampleVisible_trial_means (m : SSRBM) (input prior : ℕ → ℝ)
    (e : ℕ → ℕ → ℝ) :
    (∀ p, (SampleVisible m input prior e).2.get? 0 = some p →
      p.1 = VisibleMean m input prior) ∧
    (∀ j p q, (SampleVisible m input prior e).2.get? j = some p →
      (SampleVisible m input prior e).2.get? (j + 1) = some q → q.1 = p.2) ∧
    (∀ j p, (SampleVisible m input prior e).2.get? j = some p →
      ∀ i, p.2 i = randNormal (p.1 i) (1 / visiblePenalty m i) (e j i)) := by
  refine ⟨?_, ?_, ?_⟩
  · intro p hp
    exact ssvLoop_get_zero m e numMaxTrials _ 0 p hp
  · intro j p q hp hq
    exact ssvLoop_chain m e numMaxTrials _ 0 j p q hp hq
  · intro j p hp i
    rw [ssvLoop_get_draw m e numMaxTrials _ 0 j p hp]
    simp [ssvDraw]

theorem sampleVisible_trial_means_witness :
    (SampleVisible mW zf zf onee).2.get? 0 =
      some (VisibleMean mW zf zf, ssvDraw mW onee (VisibleMean mW zf zf) 0) ∧
    (VisibleMean mW zf zf, ssvDraw mW onee (VisibleMean mW zf zf) 0).1 =
      VisibleMean mW zf zf := by
  have h0 : (SampleVisible mW zf zf onee).2.get? 0 =
      some (VisibleMean mW zf zf, ssvDraw mW onee (VisibleMean mW zf zf) 0) := by
    rw [mW_sampleVisible_eval]
    rfl
  exact ⟨h0, (sampleVisible_trial_means mW zf zf onee).1 _ h0⟩

end SpikeSlabRBM

end
